import Mathlib

/-!
Verification of the KitchenFlow recipe-import and ingredient-normalization
pipeline against its natural-language specification.

The definitions below are a shallow embedding of the relevant source code:

* backend/src/server.js : parseIngredientLine, the parseTime helper of the
  import-url route, the JSON-LD block scan of the import-url route, and the
  entry loop of the import-paprika route;
* frontend/pages/AddRecipe.tsx : handleBatchImportPaprika and the AI_TEXT
  envelope of handleParseText;
* frontend/pages/IngredientDetails.tsx : handleAutoMatch.

JavaScript strings are modeled as List Char, JavaScript numbers that carry
quantities as exact rationals, and the fallible external effects (network,
zip decoding, persistence writes, link writes) as explicit oracles or
Option-valued inputs.  The regular-expression engine semantics (leftmost
alternative preference, greedy quantifiers with backtracking) are embedded
by an explicit priority-ordered search.
-/

set_option maxHeartbeats 4000000
set_option maxRecDepth 4000

namespace KitchenFlow

/-- Whitespace class of the JavaScript regex token for white space, which is
also the character set removed by String.prototype.trim. -/
def isJsWs (c : Char) : Bool :=
  c = ' ' || c = '\t' || c = '\n' || c = '\r' || c = '\x0b' || c = '\x0c' ||
  c = ' ' || c = ' ' ||
  (decide (0x2000 ≤ c.toNat) && decide (c.toNat ≤ 0x200a)) ||
  c = ' ' || c = ' ' || c = ' ' || c = ' ' ||
  c = '　' || c = '﻿'

/-- Line terminators, the characters the regex dot does not match. -/
def isLineTerm (c : Char) : Bool :=
  c = '\n' || c = '\r' || c = ' ' || c = ' '

/-- Model of JavaScript String.prototype.trim on character lists. -/
def jsTrim (cs : List Char) : List Char :=
  ((cs.dropWhile isJsWs).reverse.dropWhile isJsWs).reverse

/-- Case folding used to model the regex i-flag and toLowerCase on the
alphabet that occurs in the lexicons: ASCII letters plus the accented
letters of the unit and category tables. -/
def lowerCh (c : Char) : Char :=
  if 65 ≤ c.toNat ∧ c.toNat ≤ 90 then Char.ofNat (c.toNat + 32)
  else if c = 'À' then 'à'
  else if c = 'È' then 'è'
  else if c = 'É' then 'é'
  else c

/-- Character class of the leading-quantity group of the ingredient regex:
digits, the five fraction glyphs, dot, comma, slash and white space. -/
def isQtyChar (c : Char) : Bool :=
  c.isDigit || c = '½' || c = '¼' || c = '¾' ||
  c = '⅓' || c = '⅔' || c = '.' || c = ',' || c = '/' || isJsWs c

/-- Case-insensitive literal-token match: if the input starts with the token
(under the i-flag fold), return the consumed input characters (original
case, as a regex capture would) and the remainder. -/
def ciSplit : List Char → List Char → Option (List Char × List Char)
  | [], cs => some ([], cs)
  | _ :: _, [] => none
  | t :: ts, c :: cs =>
    if lowerCh c = lowerCh t then
      match ciSplit ts cs with
      | some p => some (c :: p.1, p.2)
      | none => none
    else none

/-- Unit lexicon of parseIngredientLine, in the exact order of the regex
alternation in server.js line 1263. -/
def unitTokens : List (List Char) :=
  ["g".data, "kg".data, "ml".data, "cl".data, "dl".data, "l".data,
   "c.s.".data, "c.c.".data, "c.à.s.".data, "c.à.c.".data,
   "bouquet".data, "cm".data, "pincée".data, "pincee".data,
   "gousse".data, "gousses".data, "branche".data, "branches".data,
   "feuille".data, "feuilles".data, "tranche".data, "tranches".data,
   "botte".data, "bottes".data, "sachet".data, "sachets".data,
   "cuillère".data, "cuillères".data, "verre".data, "verres".data,
   "tasse".data, "tasses".data, "poignée".data, "poignees".data]

/-- Connector-word alternation of the ingredient regex, in source order;
the apostrophe entries are duplicated in the source. -/
def connectorTokens : List (List Char) :=
  ["de ".data, ['d', '\x27'], ['d', '\x27'], "du ".data, "des ".data,
   "la ".data, "le ".data, ['l', '\x27'], ['l', '\x27']]

/-- Suffixes reachable by a greedy star over white space, in backtracking
priority order: first the suffix after the maximal run, then shorter runs
down to consuming nothing. -/
def wsDrops (cs : List Char) : List (List Char) :=
  cs.dropWhile isJsWs ::
    (List.range (cs.takeWhile isJsWs).length).map
      (fun i => cs.drop ((cs.takeWhile isJsWs).length - 1 - i))

/-- Final group of the ingredient regex, a greedy dot-plus: the longest
non-empty run of non-line-terminator characters. -/
def tryG3 (cs : List Char) : Option (List Char) :=
  let cap := cs.takeWhile (fun c => !(isLineTerm c))
  if cap.isEmpty then none else some cap

/-- White space then the name group. -/
def stage6 (cs : List Char) : Option (List Char) :=
  (wsDrops cs).findSome? tryG3

/-- Optional connector word (alternatives in source order, then the
absent-group option) followed by stage6. -/
def stage5 (cs : List Char) : Option (List Char) :=
  ((connectorTokens.filterMap (fun t => (ciSplit t cs).map (fun p => p.2)))
    ++ [cs]).findSome? stage6

/-- White space between the unit group and the connector. -/
def stage4 (cs : List Char) : Option (List Char) :=
  (wsDrops cs).findSome? stage5

/-- Optional unit group: each lexicon alternative in source order, then the
absent-group option; returns the unit capture and the name capture. -/
def stage3 (cs : List Char) : Option (Option (List Char) × List Char) :=
  ((unitTokens.filterMap
      (fun t => (ciSplit t cs).map
        (fun (p : List Char × List Char) =>
          ((some p.1 : Option (List Char)), p.2))))
    ++ [(none, cs)]).findSome?
    (fun (uc : Option (List Char) × List Char) =>
      (stage4 uc.2).map (fun g3 => (uc.1, g3)))

/-- White space between the quantity group and the unit group. -/
def stage2 (cs : List Char) : Option (Option (List Char) × List Char) :=
  (wsDrops cs).findSome? stage3

/-- Captures of the three groups of the ingredient regex. -/
structure RegexGroups where
  g1 : Option (List Char)
  g2 : Option (List Char)
  g3 : List Char
deriving DecidableEq

/-- Splits reachable by the optional greedy leading-quantity group, in
backtracking priority order: the maximal quantity run, shorter runs down to
one character, then the absent-group option. -/
def qtyDrops (cs : List Char) : List (Option (List Char) × List Char) :=
  ((List.range (cs.takeWhile isQtyChar).length).map
    (fun i =>
      (some (cs.take ((cs.takeWhile isQtyChar).length - i)),
       cs.drop ((cs.takeWhile isQtyChar).length - i))))
    ++ [(none, cs)]

/-- Whole ingredient regex of server.js line 1263, with JavaScript
backtracking semantics: the first split in priority order whose name group
is non-empty wins. -/
def matchIngredientRegex (cs : List Char) : Option RegexGroups :=
  (qtyDrops cs).findSome?
    (fun qc => (stage2 qc.2).map (fun ug => ⟨qc.1, ug.1, ug.2⟩))

/-- Numeric value of a digit run. -/
def digitsToNat (ds : List Char) : ℕ :=
  ds.foldl (fun a c => 10 * a + (c.toNat - 48)) 0

/-- Model of JavaScript parseFloat restricted to the character alphabet that
can reach it here (digits, dot, and stray quantity-class characters):
leading digits, then an optional dot and fraction digits; anything else
stops the scan; no digit at all yields NaN, modeled as none.  Values are
exact rationals. -/
def parseFloatQ (cs : List Char) : Option ℚ :=
  let intDs := cs.takeWhile Char.isDigit
  match cs.drop intDs.length with
  | '.' :: r2 =>
    let fracDs := r2.takeWhile Char.isDigit
    if intDs.isEmpty && fracDs.isEmpty then none
    else some (mkRat (digitsToNat intDs * 10 ^ fracDs.length + digitsToNat fracDs)
      (10 ^ fracDs.length))
  | _ => if intDs.isEmpty then none else some (mkRat (digitsToNat intDs) 1)

/-- Model of JavaScript String.prototype.split on a single character. -/
def splitOnChar (sep : Char) : List Char → List (List Char)
  | [] => [[]]
  | c :: cs =>
    match splitOnChar sep cs with
    | [] => [[c]]
    | h :: t => if c = sep then [] :: h :: t else (c :: h) :: t

/-- Model of str.replace applied to one comma: only the first comma is
replaced by a dot. -/
def replaceFirstComma : List Char → List Char
  | [] => []
  | c :: cs => if c = ',' then '.' :: cs else c :: replaceFirstComma cs

/-- The parseFraction helper of parseIngredientLine: trim, look the string
up in the fraction-glyph table, else split on a slash and divide, else
parseFloat after mapping the first comma to a dot.  The slash branch models
the JavaScript float division: a non-numeric or zero divisor (NaN or
Infinity in the source) is modeled as none. -/
def parseFraction (cs : List Char) : Option ℚ :=
  let s := jsTrim cs
  if s = ['½'] then some (mkRat 1 2)
  else if s = ['¼'] then some (mkRat 1 4)
  else if s = ['¾'] then some (mkRat 3 4)
  else if s = ['⅓'] then some (mkRat 333 1000)
  else if s = ['⅔'] then some (mkRat 667 1000)
  else if s.contains '/' then
    match splitOnChar '/' s with
    | num :: den :: _ =>
      match parseFloatQ num, parseFloatQ den with
      | some n, some d =>
        if d = 0 then none
        else some (mkRat (n.num * d.den) (d.num.toNat * n.den))
      | _, _ => none
    | _ => none
  else parseFloatQ (replaceFirstComma s)

/-- Substring test, modeling JavaScript regex search for a literal word. -/
def listHasInfix (needle : List Char) : List Char → Bool
  | [] => needle.isEmpty
  | c :: cs => needle.isPrefixOf (c :: cs) || listHasInfix needle cs

/-- Whole-line optional scan of parseIngredientLine: a case-insensitive
search for the French words for optional, or a question mark anywhere. -/
def detectOptional (cs : List Char) : Bool :=
  listHasInfix ("optionnel".data) (cs.map lowerCh) ||
  listHasInfix ("facultatif".data) (cs.map lowerCh) ||
  cs.contains '?'

/-- Canonical parsed ingredient line shape. -/
structure ParsedIngredient where
  amount : Option ℚ
  unit : Option String
  name : String
  optional : Bool
deriving DecidableEq

/-- Embedding of parseIngredientLine (server.js lines 1237-1276): empty or
blank input yields the all-null result; otherwise the regex runs on the
trimmed line, a match with a non-empty name group produces the structured
result, and anything else degrades to a name-only line.  The optional flag
is always the whole-line scan. -/
def parseIngredientLine (line : String) : ParsedIngredient :=
  let cleaned := jsTrim line.data
  if cleaned.isEmpty then ⟨none, none, "", false⟩
  else
    match matchIngredientRegex cleaned with
    | some gs =>
      if gs.g3.isEmpty then ⟨none, none, String.mk cleaned, detectOptional cleaned⟩
      else
        ⟨gs.g1.bind parseFraction, gs.g2.map String.mk,
         String.mk (jsTrim gs.g3), detectOptional cleaned⟩
    | none => ⟨none, none, String.mk cleaned, detectOptional cleaned⟩

/-- Minutes group of the PT pattern: greedy digits followed by a literal M;
if the digits are not followed by M the optional group is absent. -/
def ptMinutesGroup (cs : List Char) : ℕ :=
  let ms := cs.takeWhile Char.isDigit
  if ms.isEmpty then 0
  else
    match cs.drop ms.length with
    | 'M' :: _ => digitsToNat ms
    | _ => 0

/-- Hours and minutes groups of the PT pattern, both optional, applied
right after a PT occurrence. -/
def ptParts (cs : List Char) : ℕ × ℕ :=
  let ds := cs.takeWhile Char.isDigit
  if ds.isEmpty then (0, ptMinutesGroup cs)
  else
    match cs.drop ds.length with
    | 'H' :: r => (digitsToNat ds, ptMinutesGroup r)
    | _ => (0, ptMinutesGroup cs)

/-- Unanchored search for the duration pattern: since both groups are
optional, the pattern matches at the first occurrence of the literal PT
anywhere in the string, exactly as the unanchored JavaScript regex does. -/
def findPT : List Char → Option (ℕ × ℕ)
  | 'P' :: 'T' :: rest => some (ptParts rest)
  | _ :: cs => findPT cs
  | [] => none

/-- First run of digits anywhere in the string, as a number. -/
def firstDigitRun : List Char → Option ℕ
  | [] => none
  | c :: cs =>
    if c.isDigit then some (digitsToNat ((c :: cs).takeWhile Char.isDigit))
    else firstDigitRun cs

/-- Embedding of the parseTime helper of the import-url route (server.js
lines 796-802): falsy input yields 0; a string containing PT anywhere is
decoded as hours and minutes (each group defaulting to 0 when absent);
otherwise the first digit run is taken as minutes, defaulting to 0. -/
def parseTime (s : String) : ℕ :=
  if s = "" then 0
  else
    match findPT s.data with
    | some hm => 60 * hm.1 + hm.2
    | none => (firstDigitRun s.data).getD 0

/-- Embedding of the parseTimeStr helper of the import-paprika route
(server.js lines 948-952): first digit run, defaulting to 0. -/
def parseTimeStr (s : String) : ℕ :=
  if s = "" then 0 else (firstDigitRun s.data).getD 0

/-- JavaScript or-default on an optional string: both a missing field and
an empty string are falsy and fall through to the default. -/
def jsOrStr (o : Option String) (d : String) : String :=
  match o with
  | some s => if s = "" then d else s
  | none => d

/-- Category-synonym lexicon of the import-paprika route (server.js lines
961-969), in source order. -/
def categoryMap : List (String × String) :=
  [("entrée", "ENTREE"), ("entree", "ENTREE"), ("starter", "ENTREE"),
   ("appetizer", "ENTREE"),
   ("plat", "PLAT"), ("main", "PLAT"), ("dinner", "PLAT"), ("lunch", "PLAT"),
   ("dessert", "DESSERT"), ("desserts", "DESSERT"),
   ("sauce", "SAUCE"), ("sauces", "SAUCE"),
   ("accompagnement", "ACCOMPAGNEMENT"), ("side", "ACCOMPAGNEMENT"),
   ("boisson", "BOISSON"), ("drink", "BOISSON"), ("beverage", "BOISSON"),
   ("snack", "SNACK"), ("en-cas", "SNACK")]

/-- Lower-casing of a string over the lexicon alphabet. -/
def lowerStr (s : String) : String :=
  String.mk (s.data.map lowerCh)

/-- Vendor-native schema of one decompressed archive entry. -/
structure PaprikaRecipe where
  name : Option String
  ingredients : Option String
  directions : Option String
  prep_time : Option String
  cook_time : Option String
  servings : Option String
  categories : Option (List String)
  rating : Option ℚ
  notes : Option String
  source_url : Option String
  difficulty : Option String
deriving DecidableEq

/-- Newline split keeping only lines whose trim is non-empty; the kept
lines are not themselves trimmed, as in the source. -/
def nonBlankLines (s : String) : List String :=
  ((splitOnChar '\n' s.data).filter (fun l => !(jsTrim l).isEmpty)).map String.mk

/-- Ingredient blob split of the import-paprika route: non-blank lines,
each trimmed and run through parseIngredientLine. -/
def paprikaIngredientLines (s : String) : List ParsedIngredient :=
  ((splitOnChar '\n' s.data).filter (fun l => !(jsTrim l).isEmpty)).map
    (fun l => parseIngredientLine (String.mk (jsTrim l)))

/-- Partial recipe record assembled by the import routes. -/
structure RecipeDraft where
  name : String
  category : String
  cuisine : Option String
  instructions : List String
  prepTime : ℕ
  cookTime : ℕ
  servings : ℕ
  servingsText : Option String
  difficulty : String
  tips : List String
  source : String
  sourceUrl : Option String
  isFavorite : Bool
deriving DecidableEq

/-- Transient import envelope: partial recipe, ordered parsed ingredient
lines, confidence tier and parse-method tag. -/
structure ImportResult where
  recipe : RecipeDraft
  ingredients : List ParsedIngredient
  confidence : String
  parseMethod : String
deriving DecidableEq

/-- Mapping of one decoded archive entry to an ImportResult (server.js
lines 938-992). -/
def paprikaToImportResult (p : PaprikaRecipe) : ImportResult :=
  let servingsStr := jsOrStr p.servings ""
  let firstCat := jsOrStr (p.categories.getD []).head? ""
  { recipe :=
    { name := jsOrStr p.name "Sans nom"
      category :=
        ((categoryMap.find? (fun q => q.1 = lowerStr firstCat)).map
          (fun q => q.2)).getD "PLAT"
      cuisine := none
      instructions := nonBlankLines (jsOrStr p.directions "")
      prepTime := parseTimeStr (jsOrStr p.prep_time "")
      cookTime := parseTimeStr (jsOrStr p.cook_time "")
      servings := (firstDigitRun servingsStr.data).getD 4
      servingsText := if servingsStr = "" then none else some servingsStr
      difficulty := jsOrStr p.difficulty "MEDIUM"
      tips :=
        match p.notes with
        | some n => if n = "" then [] else [n]
        | none => []
      source := "IMPORTED"
      sourceUrl :=
        match p.source_url with
        | some u => if u = "" then none else some u
        | none => none
      isFavorite := decide (3 < p.rating.getD 0) }
    ingredients := paprikaIngredientLines (jsOrStr p.ingredients "")
    confidence := "MEDIUM"
    parseMethod := "PAPRIKA" }

/-- One inner archive record: its entry name and the outcome of
decompressing and JSON-decoding it; none models the per-entry throw that
the route catches and logs. -/
structure ArchiveEntry where
  entryName : String
  decoded : Option PaprikaRecipe
deriving DecidableEq

/-- Extension filter of the entry loop. -/
def hasPaprikaExt (name : String) : Bool :=
  (".paprikarecipe".data).isSuffixOf name.data

/-- Embedding of the entry loop of the import-paprika route (server.js
lines 931-997): entries with the vendor extension are decoded, one
ImportResult per success; a decode failure is skipped and the loop goes
on. -/
def importPaprika (entries : List ArchiveEntry) : List ImportResult :=
  entries.filterMap
    (fun e =>
      if hasPaprikaExt e.entryName then e.decoded.map paprikaToImportResult
      else none)

/-- Shape of the type field of a structured-metadata node: a bare string
or an array of strings. -/
inductive LdType where
  | str (s : String)
  | arr (ss : List String)
deriving DecidableEq

/-- One structured-metadata candidate object; the name field stands for
the node payload that the route copies out of the selected node. -/
structure LdNode where
  type : Option LdType
  name : Option String
deriving DecidableEq

/-- Parse result of one script block: a bare array of nodes, or a single
object carrying an optional graph array. -/
inductive LdParse where
  | arr (nodes : List LdNode)
  | obj (node : LdNode) (graph : Option (List LdNode))
deriving DecidableEq

/-- Candidate list of one parsed block (server.js line 782): an array is
used as is, an object with a graph property contributes the graph array,
a plain object contributes itself. -/
def ldCandidates : LdParse → List LdNode
  | .arr ns => ns
  | .obj n g =>
    match g with
    | some ns => ns
    | none => [n]

/-- Recipe-type test of server.js line 784: the type is the exact string
Recipe, or an array containing it. -/
def isRecipeNode (n : LdNode) : Bool :=
  match n.type with
  | some (.str s) => s = "Recipe"
  | some (.arr l) => l.contains "Recipe"
  | none => false

/-- Embedding of the block scan of the import-url route (server.js lines
775-792): blocks in document order, a block whose JSON parse failed is
none and is skipped, and the first Recipe-typed candidate wins. -/
def findRecipeData (blocks : List (Option LdParse)) : Option LdNode :=
  blocks.findSome? (fun b => b.bind (fun p => (ldCandidates p).find? isRecipeNode))

/-- Envelope of the import-url response: which node was selected and the
confidence and parse-method tags of the two branches (server.js lines
833-869). -/
structure UrlImportResponse where
  recipeNode : Option LdNode
  confidence : String
  parseMethod : String
deriving DecidableEq

/-- Branch selection of the import-url route: a found Recipe node yields
the structured-path tags, no node yields the raw-text tags. -/
def importUrlRespond (blocks : List (Option LdParse)) : UrlImportResponse :=
  match findRecipeData blocks with
  | some node => ⟨some node, "HIGH", "JSON_LD"⟩
  | none => ⟨none, "LOW", "NEEDS_AI"⟩

/-- Tags of the envelope built by handleParseText in AddRecipe.tsx lines
227-232 for text structured by the external capability. -/
structure TextParseEnvelope where
  confidence : String
  parseMethod : String
deriving DecidableEq

/-- The AI-text envelope constants of AddRecipe.tsx. -/
def handleParseTextEnvelope : TextParseEnvelope :=
  ⟨"MEDIUM", "AI_TEXT"⟩

/-- Progress counter reported during batch import. -/
structure BatchProgress where
  current : ℕ
  total : ℕ
deriving DecidableEq

/-- Observable state of handleBatchImportPaprika: every value ever passed
to setPaprikaBatchProgress in order, the final progress value, the error
surfaced by the catch branch, the indices whose creation was attempted,
the indices actually persisted, and whether navigation happened. -/
structure BatchState where
  progressLog : List (Option BatchProgress)
  progress : Option BatchProgress
  error : Option String
  attempted : List ℕ
  persisted : List ℕ
  navigated : Bool
deriving DecidableEq

/-- One setPaprikaBatchProgress call. -/
def setBatchProgress (st : BatchState) (p : Option BatchProgress) : BatchState :=
  { st with progress := p, progressLog := st.progressLog ++ [p] }

/-- The for loop of handleBatchImportPaprika (AddRecipe.tsx lines 297-328):
progress is advanced to i+1 before creating item i, a creation failure
sets the error and resets progress to null, and a completed loop
navigates away.  The rem argument counts the remaining iterations, so the
recursion is structural; the loop is entered with rem = total and i = 0. -/
def batchLoop (create : ℕ → Except String Unit) (total : ℕ) :
    ℕ → ℕ → BatchState → BatchState
  | 0, _, st => { st with navigated := true }
  | rem + 1, i, st =>
    let st1 := setBatchProgress st (some ⟨i + 1, total⟩)
    let st2 := { st1 with attempted := st1.attempted ++ [i] }
    match create i with
    | .ok _ =>
      batchLoop create total rem (i + 1) { st2 with persisted := st2.persisted ++ [i] }
    | .error e => setBatchProgress { st2 with error := some e } none

/-- One batch-import candidate row of the AddRecipe page. -/
structure PaprikaCandidate (α : Type) where
  importResult : α
  selected : Bool
deriving DecidableEq

/-- State before the batch starts. -/
def initialBatchState : BatchState :=
  ⟨[], none, none, [], [], false⟩

/-- Embedding of handleBatchImportPaprika (AddRecipe.tsx lines 289-329):
filter the selected candidates, bail out on an empty selection, seed
progress at 0 of n, then run the sequential creation loop; the create
oracle gives the outcome of the persistence write for each index of the
selected list. -/
def handleBatchImportPaprika {α : Type} (candidates : List (PaprikaCandidate α))
    (create : ℕ → Except String Unit) : BatchState :=
  let selected := candidates.filter (fun c => c.selected)
  if selected.length = 0 then initialBatchState
  else
    batchLoop create selected.length selected.length 0
      (setBatchProgress initialBatchState (some ⟨0, selected.length⟩))

/-- Confidence tier of a match candidate, as constrained by the matcher
schema enum in the AI service. -/
inductive Confidence where
  | HIGH
  | MEDIUM
  | LOW
deriving DecidableEq

/-- External-capability match candidate consumed by the linker. -/
structure MatchCandidate where
  recipeIngredientName : String
  matchedIngredientId : Option String
  confidence : Confidence
deriving DecidableEq

/-- One recipe ingredient line as seen by the auto-match handler. -/
structure RecipeLine where
  id : String
  name : String
  ingredientId : Option String
deriving DecidableEq

/-- JavaScript truthiness of the matched id: present and non-empty. -/
def candidateIdTruthy (m : MatchCandidate) : Bool :=
  match m.matchedIngredientId with
  | some s => if s = "" then false else true
  | none => false

/-- Confidence part of the acceptance test: anything but LOW. -/
def notLow (m : MatchCandidate) : Bool :=
  match m.confidence with
  | .LOW => false
  | _ => true

/-- Acceptance test of IngredientDetails.tsx line 1373: a truthy matched
id and a confidence other than LOW. -/
def autoMatchGuard (m : MatchCandidate) : Bool :=
  candidateIdTruthy m && notLow m

/-- Line lookup of IngredientDetails.tsx lines 1374-1376: the first line
with the exact candidate name and no inventory link yet, evaluated against
the recipe snapshot held by the closure. -/
def findUnlinkedLine (lines : List RecipeLine) (nm : String) : Option RecipeLine :=
  lines.find? (fun l => l.name == nm && l.ingredientId.isNone)

/-- Embedding of the linking loop of handleAutoMatch (IngredientDetails.tsx
lines 1372-1384): returns the linked counter and the list of successful
link writes in order; the linkOk oracle gives the outcome of each
linkRecipeIngredient call. -/
def autoMatchRun (lines : List RecipeLine) (linkOk : String → String → Bool) :
    List MatchCandidate → ℕ × List (String × String)
  | [] => (0, [])
  | m :: rest =>
    let r := autoMatchRun lines linkOk rest
    if autoMatchGuard m then
      match findUnlinkedLine lines m.recipeIngredientName, m.matchedIngredientId with
      | some l, some mid =>
        if linkOk l.id mid then (r.1 + 1, (l.id, mid) :: r.2) else r
      | _, _ => r
    else r

/-- The auto-match reconcile operation over a fixed recipe snapshot. -/
def handleAutoMatch (lines : List RecipeLine) (ms : List MatchCandidate)
    (linkOk : String → String → Bool) : ℕ × List (String × String) :=
  autoMatchRun lines linkOk ms

/-! Support lemmas about the regex embedding. -/

/-- Lists whose last character, if any, is not white space; every suffix of
a trimmed line that the matcher works on has this shape. -/
def GoodTail (cs : List Char) : Prop :=
  ∀ c, cs.getLast? = some c → isJsWs c = false

theorem goodTail_nil : GoodTail [] := by
  intro c hc
  simp at hc

theorem goodTail_of_suffix {l' l : List Char} (h : l' <:+ l) (hg : GoodTail l) :
    GoodTail l' := by
  intro c hc
  rcases h with ⟨pre, rfl⟩
  apply hg
  rw [List.getLast?_append, hc]
  rfl

theorem jsTrim_cons_not_ws {c : Char} {cs : List Char} (h : isJsWs c = false) :
    jsTrim (c :: cs) ≠ [] := by
  unfold jsTrim
  intro hcontra
  rw [List.dropWhile_cons_of_neg (by simp [h])] at hcontra
  have h2 : (c :: cs).reverse.dropWhile isJsWs = [] := by
    simpa using congrArg List.reverse hcontra
  rw [List.dropWhile_eq_nil_iff] at h2
  have h3 := h2 c (by simp)
  simp [h] at h3

theorem lineTerm_of_not_ws {c : Char} (h : isJsWs c = false) :
    isLineTerm c = false := by
  simp only [isJsWs, Bool.or_eq_false_iff, decide_eq_false_iff_not] at h
  simp only [isLineTerm, Bool.or_eq_false_iff, decide_eq_false_iff_not]
  tauto

theorem findSome?_good {α β : Type} {l : List α} {f : α → Option β} {Q : β → Prop}
    (H : ∀ a ∈ l, ∀ b, f a = some b → Q b) :
    ∀ {b : β}, l.findSome? f = some b → Q b := by
  induction l with
  | nil => intro b h; simp [List.findSome?] at h
  | cons a as ih =>
    intro b h
    rw [List.findSome?_cons] at h
    cases hfa : f a with
    | some b' =>
      rw [hfa] at h
      have h2 : some b' = some b := h
      injection h2 with h3
      exact H a (by simp) b (by rw [hfa, h3])
    | none =>
      rw [hfa] at h
      exact ih (fun x hx => H x (by simp [hx])) h

theorem wsDrops_suffix {cs x : List Char} (h : x ∈ wsDrops cs) : x <:+ cs := by
  unfold wsDrops at h
  simp only [List.mem_cons, List.mem_map, List.mem_range] at h
  rcases h with rfl | ⟨i, _, rfl⟩
  · exact List.dropWhile_suffix isJsWs
  · exact List.drop_suffix _ _

theorem ciSplit_suffix :
    ∀ (t cs : List Char) (p : List Char × List Char),
      ciSplit t cs = some p → p.2 <:+ cs := by
  intro t
  induction t with
  | nil =>
    intro cs p h
    unfold ciSplit at h
    injection h with h'
    rw [← h']
  | cons a ts ih =>
    intro cs p h
    cases cs with
    | nil => simp [ciSplit] at h
    | cons c cs' =>
      unfold ciSplit at h
      split at h
      · cases hsub : ciSplit ts cs' with
        | none => rw [hsub] at h; simp at h
        | some p' =>
          rw [hsub] at h
          injection h with h'
          have h2 := ih cs' p' hsub
          rw [← h']
          exact h2.trans (List.suffix_cons c cs')
      · simp at h

theorem stage6_good {cs : List Char} (hg : GoodTail cs) {g : List Char}
    (h : stage6 cs = some g) : jsTrim g ≠ [] := by
  unfold stage6 wsDrops at h
  cases hd : cs.dropWhile isJsWs with
  | nil =>
    have hall := List.dropWhile_eq_nil_iff.mp hd
    have hcs : cs = [] := by
      cases hcs : cs with
      | nil => rfl
      | cons a as =>
        exfalso
        obtain ⟨x, hx⟩ : ∃ x, (a :: as).getLast? = some x := by
          cases h' : (a :: as).getLast? with
          | none => simp at h'
          | some x => exact ⟨x, rfl⟩
        have hxmem : x ∈ cs := by
          rw [hcs]
          exact List.mem_of_getLast?_eq_some hx
        have hws : isJsWs x = true := hall x hxmem
        have hnws : isJsWs x = false := hg x (by rw [hcs]; exact hx)
        rw [hnws] at hws
        exact Bool.false_ne_true hws
    subst hcs
    simp [List.findSome?, tryG3] at h
  | cons a as =>
    have ha : isJsWs a = false := by
      have h2 := List.head?_dropWhile_not isJsWs cs
      rw [hd] at h2
      exact h2
    have htry : tryG3 (a :: as) =
        some (a :: as.takeWhile (fun c => !(isLineTerm c))) := by
      simp [tryG3, List.takeWhile_cons, lineTerm_of_not_ws ha]
    rw [hd, List.findSome?_cons, htry] at h
    have h2 : some (a :: as.takeWhile (fun c => !(isLineTerm c))) = some g := h
    injection h2 with h3
    rw [← h3]
    exact jsTrim_cons_not_ws ha

theorem stage5_good {cs : List Char} (hg : GoodTail cs) {g : List Char}
    (h : stage5 cs = some g) : jsTrim g ≠ [] := by
  unfold stage5 at h
  refine findSome?_good (Q := fun g => jsTrim g ≠ []) ?_ h
  intro x hx b hb
  have hsuf : x <:+ cs := by
    rcases List.mem_append.mp hx with hx' | hx'
    · obtain ⟨t, _, ht⟩ := List.mem_filterMap.mp hx'
      obtain ⟨p, hp, hp2⟩ := Option.map_eq_some'.mp ht
      rw [← hp2]
      exact ciSplit_suffix t cs p hp
    · simp only [List.mem_singleton] at hx'
      rw [hx']
  exact stage6_good (goodTail_of_suffix hsuf hg) hb

theorem stage4_good {cs : List Char} (hg : GoodTail cs) {g : List Char}
    (h : stage4 cs = some g) : jsTrim g ≠ [] := by
  unfold stage4 at h
  refine findSome?_good (Q := fun g => jsTrim g ≠ []) ?_ h
  intro x hx b hb
  exact stage5_good (goodTail_of_suffix (wsDrops_suffix hx) hg) hb

theorem stage3_good {cs : List Char} (hg : GoodTail cs)
    {ug : Option (List Char) × List Char}
    (h : stage3 cs = some ug) : jsTrim ug.2 ≠ [] := by
  unfold stage3 at h
  refine findSome?_good (Q := fun ug => jsTrim ug.2 ≠ []) ?_ h
  intro x hx b hb
  obtain ⟨g3, hg3, hbg⟩ := Option.map_eq_some'.mp hb
  have hsuf : x.2 <:+ cs := by
    rcases List.mem_append.mp hx with hx' | hx'
    · obtain ⟨t, _, ht⟩ := List.mem_filterMap.mp hx'
      obtain ⟨p, hp, hp2⟩ := Option.map_eq_some'.mp ht
      rw [← hp2]
      exact ciSplit_suffix t cs p hp
    · simp only [List.mem_singleton] at hx'
      rw [hx']
  have := stage4_good (goodTail_of_suffix hsuf hg) hg3
  rw [← hbg]
  exact this

theorem stage2_good {cs : List Char} (hg : GoodTail cs)
    {ug : Option (List Char) × List Char}
    (h : stage2 cs = some ug) : jsTrim ug.2 ≠ [] := by
  unfold stage2 at h
  refine findSome?_good (Q := fun ug => jsTrim ug.2 ≠ []) ?_ h
  intro x hx b hb
  exact stage3_good (goodTail_of_suffix (wsDrops_suffix hx) hg) hb

theorem qtyDrops_suffix {cs : List Char} {x : Option (List Char) × List Char}
    (h : x ∈ qtyDrops cs) : x.2 <:+ cs := by
  unfold qtyDrops at h
  rcases List.mem_append.mp h with h' | h'
  · simp only [List.mem_map, List.mem_range] at h'
    obtain ⟨i, _, rfl⟩ := h'
    exact List.drop_suffix _ _
  · simp only [List.mem_singleton] at h'
    rw [h']

theorem matchIngredientRegex_good {cs : List Char} (hg : GoodTail cs)
    {gs : RegexGroups} (h : matchIngredientRegex cs = some gs) :
    jsTrim gs.g3 ≠ [] := by
  unfold matchIngredientRegex at h
  refine findSome?_good (Q := fun gs => jsTrim gs.g3 ≠ []) ?_ h
  intro x hx b hb
  obtain ⟨ug, hug, hbg⟩ := Option.map_eq_some'.mp hb
  have := stage2_good (goodTail_of_suffix (qtyDrops_suffix hx) hg) hug
  rw [← hbg]
  exact this

theorem goodTail_jsTrim (cs : List Char) : GoodTail (jsTrim cs) := by
  intro c hc
  unfold jsTrim at hc
  rw [List.getLast?_reverse] at hc
  have h2 := List.head?_dropWhile_not isJsWs ((cs.dropWhile isJsWs).reverse)
  rw [hc] at h2
  exact h2

/-- C10: for every input whose trimmed form is non-empty,
parseIngredientLine returns a non-empty name, because the name group of
the regex must consume at least one character and the matcher backtracks
out of the quantity group to feed it; in particular the digits-only line
250 yields amount 25 and name 0 rather than an empty name or a failure. -/
theorem C10_nonempty_name :
    (∀ s : String, jsTrim s.data ≠ [] → (parseIngredientLine s).name ≠ "") ∧
    parseIngredientLine ("250") =
      ⟨some 25, none, "0", false⟩ := by
  constructor
  · intro s hne
    have hgt := goodTail_jsTrim s.data
    have hni : ¬((jsTrim s.data).isEmpty = true) := by
      cases hl : jsTrim s.data with
      | nil => exact absurd hl hne
      | cons a as => simp
    unfold parseIngredientLine
    rw [if_neg hni]
    cases hm : matchIngredientRegex (jsTrim s.data) with
    | none =>
      simp only [hm]
      intro hEq
      exact hne (by simpa using congrArg String.data hEq)
    | some gs =>
      simp only [hm]
      by_cases hg3 : gs.g3.isEmpty = true
      · rw [if_pos hg3]
        intro hEq
        exact hne (by simpa using congrArg String.data hEq)
      · rw [if_neg hg3]
        intro hEq
        exact matchIngredientRegex_good hgt hm
          (by simpa using congrArg String.data hEq)
  · decide

/-- C10 witness: the trimmed form of the line 250 is non-empty and its
parse has a non-empty name. -/
theorem C10_nonempty_name_witness :
    jsTrim ("250").data ≠ [] ∧ (parseIngredientLine ("250")).name ≠ "" :=
  ⟨by decide, C10_nonempty_name.1 ("250") (by decide)⟩

/-- C6: parseIngredientLine is a total function of its input (it is a Lean
function, so it returns a value for every string and cannot raise); when
the structured regex parse fails on the trimmed line, the result degrades
to the name-only shape whose name is the trimmed input and whose optional
flag is the whole-line scan; and the empty string yields the all-null
result with an empty name. -/
theorem C6_parser_degrades :
    (∀ s : String, matchIngredientRegex (jsTrim s.data) = none →
      parseIngredientLine s =
        ⟨none, none, String.mk (jsTrim s.data), detectOptional (jsTrim s.data)⟩) ∧
    parseIngredientLine ("") = ⟨none, none, "", false⟩ := by
  constructor
  · intro s hm
    unfold parseIngredientLine
    by_cases hl : (jsTrim s.data).isEmpty = true
    · rw [if_pos hl]
      have hl' : jsTrim s.data = [] := by simpa using hl
      rw [hl']
      decide
    · rw [if_neg hl]
      simp only [hm]
  · decide

/-- C6 witness: a blank line makes the regex fail, and the degraded result
is the all-null shape. -/
theorem C6_parser_degrades_witness :
    matchIngredientRegex (jsTrim (" ").data) = none ∧
    parseIngredientLine (" ") =
      ⟨none, none, String.mk (jsTrim (" ").data), detectOptional (jsTrim (" ").data)⟩ :=
  ⟨by decide, C6_parser_degrades.1 (" ") (by decide)⟩

/-- C7: the two named parses hold, the five fraction glyphs map to their
table values, slash fractions divide, decimals accept both dot and comma,
and the optional flag is exactly the whole-line scan for the French words
for optional or a question mark, independent of the structured parse. -/
theorem C7_parser_examples :
    parseIngredientLine ("250 g de lentilles corail") =
      ⟨some 250, some ("g"), "lentilles corail", false⟩ ∧
    parseIngredientLine ("½ bouquet de coriandre") =
      ⟨some (mkRat 1 2), some ("bouquet"), "coriandre", false⟩ ∧
    parseFraction ("½").data = some (mkRat 1 2) ∧
    parseFraction ("¼").data = some (mkRat 1 4) ∧
    parseFraction ("¾").data = some (mkRat 3 4) ∧
    parseFraction ("⅓").data = some (mkRat 333 1000) ∧
    parseFraction ("⅔").data = some (mkRat 667 1000) ∧
    parseFraction ("1/2").data = some (mkRat 1 2) ∧
    parseFraction ("3/4").data = some (mkRat 3 4) ∧
    parseFraction ("1.5").data = some (mkRat 3 2) ∧
    parseFraction ("1,5").data = some (mkRat 3 2) ∧
    (∀ s : String, (parseIngredientLine s).optional = detectOptional (jsTrim s.data)) ∧
    (parseIngredientLine ("sel (optionnel)")).optional = true ∧
    (parseIngredientLine ("sel FACULTATIF")).optional = true ∧
    (parseIngredientLine ("sel ?")).optional = true ∧
    (parseIngredientLine ("sel")).optional = false := by
  refine ⟨by decide, by decide, by decide, by decide, by decide, by decide,
    by decide, by decide, by decide, by decide, by decide, ?_,
    by decide, by decide, by decide, by decide⟩
  intro s
  unfold parseIngredientLine
  by_cases hl : (jsTrim s.data).isEmpty = true
  · rw [if_pos hl]
    have hl' : jsTrim s.data = [] := by simpa using hl
    rw [hl']
    decide
  · rw [if_neg hl]
    cases hm : matchIngredientRegex (jsTrim s.data) with
    | none => simp only [hm]
    | some gs =>
      simp only [hm]
      by_cases hg3 : gs.g3.isEmpty = true
      · rw [if_pos hg3]
      · rw [if_neg hg3]

/-- Unit tokens that the ordered alternation can actually match whole in a
line of the form 2 token de name: every lexicon entry except the plural
forms (whose singular prefix is an earlier alternative) and except gousse
and gousses (whose first letter is already matched by the alternative g). -/
def wholeMatchUnitTokens : List String :=
  ["g", "kg", "ml", "cl", "dl", "l", "c.s.", "c.c.", "c.à.s.", "c.à.c.",
   "bouquet", "cm", "pincée", "pincee", "branche", "feuille", "tranche",
   "botte", "sachet", "cuillère", "verre", "tasse", "poignée", "poignees"]

/-- Listed plural forms paired with the singular alternative that the regex
commits to instead, leaving the final s in the name group. -/
def shadowedPluralPairs : List (String × String) :=
  [("branches", "branche"), ("feuilles", "feuille"), ("tranches", "tranche"),
   ("bottes", "botte"), ("sachets", "sachet"), ("cuillères", "cuillère"),
   ("verres", "verre"), ("tasses", "tasse"), ("poignées", "poignée")]

/-- Token-versus-input comparison outcome used to reason about the ordered
alternation: true exactly when matching the token against the input hits a
character mismatch (as opposed to succeeding or running out of input), so
the comparison also fails on every extension of the input. -/
def ciMismatch : List Char → List Char → Bool
  | [], _ => false
  | _ :: _, [] => false
  | a :: ts, c :: cs => if lowerCh c = lowerCh a then ciMismatch ts cs else true

theorem lowerCh_eq_self_of_ws {c : Char} (h : isJsWs c = true) : lowerCh c = c := by
  unfold isJsWs at h
  simp only [Bool.or_eq_true, Bool.and_eq_true, decide_eq_true_eq] at h
  rcases h with
    ((((((((((((((h|h)|h)|h)|h)|h)|h)|h)|⟨h1, h2⟩)|h)|h)|h)|h)|h)|h)
  all_goals try (subst h; decide)
  unfold lowerCh
  have hA : c ≠ 'À' := fun he => by rw [he] at h1; exact absurd h1 (by decide)
  have hB : c ≠ 'È' := fun he => by rw [he] at h1; exact absurd h1 (by decide)
  have hC : c ≠ 'É' := fun he => by rw [he] at h1; exact absurd h1 (by decide)
  rw [if_neg (by omega), if_neg hA, if_neg hB, if_neg hC]

theorem lowerCh_eq_self_of_digit {c : Char} (h : c.isDigit = true) : lowerCh c = c := by
  unfold Char.isDigit at h
  simp only [Bool.and_eq_true, decide_eq_true_eq] at h
  obtain ⟨h1, h2⟩ := h
  have hn1 : 48 ≤ c.toNat := h1
  have hn2 : c.toNat ≤ 57 := h2
  unfold lowerCh
  have hA : c ≠ 'À' := fun he => by rw [he] at hn2; exact absurd hn2 (by decide)
  have hB : c ≠ 'È' := fun he => by rw [he] at hn2; exact absurd hn2 (by decide)
  have hC : c ≠ 'É' := fun he => by rw [he] at hn2; exact absurd hn2 (by decide)
  rw [if_neg (by omega), if_neg hA, if_neg hB, if_neg hC]

theorem lowerCh_eq_self_of_qty {c : Char} (h : isQtyChar c = true) : lowerCh c = c := by
  unfold isQtyChar at h
  simp only [Bool.or_eq_true, decide_eq_true_eq] at h
  rcases h with (((((((((hd|h)|h)|h)|h)|h)|h)|h)|h)|hw)
  · exact lowerCh_eq_self_of_digit hd
  all_goals try (subst h; decide)
  exact lowerCh_eq_self_of_ws hw

theorem isQtyChar_of_ws {c : Char} (h : isJsWs c = true) : isQtyChar c = true := by
  unfold isQtyChar
  rw [h]
  simp

theorem ws_false_of_qty_false {c : Char} (h : isQtyChar c = false) :
    isJsWs c = false := by
  rcases Bool.eq_false_or_eq_true (isJsWs c) with hb | hb
  · rw [isQtyChar_of_ws hb] at h
    exact absurd h (by simp)
  · exact hb

theorem ciSplit_append_of_lower :
    ∀ (t u : List Char), u.map lowerCh = t.map lowerCh →
      ∀ rest, ciSplit t (u ++ rest) = some (u, rest) := by
  intro t
  induction t with
  | nil =>
    intro u hu rest
    have hu' : u = [] := by simpa using hu
    subst hu'
    rfl
  | cons a ts ih =>
    intro u hu rest
    cases u with
    | nil => simp at hu
    | cons b us =>
      simp only [List.map_cons, List.cons.injEq] at hu
      obtain ⟨h1, h2⟩ := hu
      rw [List.cons_append]
      unfold ciSplit
      rw [if_pos h1, ih us h2 rest]

theorem ciSplit_eq_none_of_ciMismatch :
    ∀ (t xs : List Char), ciMismatch t xs = true → ciSplit t xs = none := by
  intro t
  induction t with
  | nil => intro xs h; simp [ciMismatch] at h
  | cons a ts ih =>
    intro xs h
    cases xs with
    | nil => rfl
    | cons c cs =>
      simp only [ciMismatch] at h
      simp only [ciSplit]
      by_cases he : lowerCh c = lowerCh a
      · rw [if_pos he] at h
        rw [if_pos he, ih cs h]
      · rw [if_neg he]

theorem ciMismatch_append :
    ∀ (t xs ys : List Char), ciMismatch t xs = true →
      ciMismatch t (xs ++ ys) = true := by
  intro t
  induction t with
  | nil => intro xs ys h; simp [ciMismatch] at h
  | cons a ts ih =>
    intro xs ys h
    cases xs with
    | nil => simp [ciMismatch] at h
    | cons c cs =>
      simp only [ciMismatch, List.cons_append] at h ⊢
      by_cases he : lowerCh c = lowerCh a
      · rw [if_pos he] at h ⊢
        exact ih cs ys h
      · rw [if_neg he]

theorem ciMismatch_lower_congr :
    ∀ (t xs ys : List Char), xs.map lowerCh = ys.map lowerCh →
      ciMismatch t xs = ciMismatch t ys := by
  intro t
  induction t with
  | nil => intro xs ys _; rfl
  | cons a ts ih =>
    intro xs ys h
    cases xs with
    | nil =>
      cases ys with
      | nil => rfl
      | cons => simp at h
    | cons c cs =>
      cases ys with
      | nil => simp at h
      | cons d ds =>
        simp only [List.map_cons, List.cons.injEq] at h
        obtain ⟨h1, h2⟩ := h
        simp only [ciMismatch]
        rw [h1]
        by_cases he : lowerCh d = lowerCh a
        · rw [if_pos he, if_pos he]
          exact ih cs ds h2
        · rw [if_neg he, if_neg he]

theorem findSome?_singleton {α β : Type} (f : α → Option β) (a : α) :
    List.findSome? f [a] = f a := by
  rw [List.findSome?_cons]
  cases f a <;> simp

theorem head_not_ws_of_jsTrim_fixed {n : List Char} (h : jsTrim n = n) :
    ∀ c cs, n = c :: cs → isJsWs c = false := by
  intro c cs hn
  rcases Bool.eq_false_or_eq_true (isJsWs c) with hb | hb
  · exfalso
    have hlen : (jsTrim (c :: cs)).length ≤ cs.length := by
      unfold jsTrim
      rw [List.dropWhile_cons_of_pos (by simp [hb])]
      calc ((cs.dropWhile isJsWs).reverse.dropWhile isJsWs).reverse.length
          = ((cs.dropWhile isJsWs).reverse.dropWhile isJsWs).length := by
            rw [List.length_reverse]
        _ ≤ (cs.dropWhile isJsWs).reverse.length :=
            (List.dropWhile_sublist isJsWs).length_le
        _ = (cs.dropWhile isJsWs).length := by rw [List.length_reverse]
        _ ≤ cs.length := (List.dropWhile_sublist isJsWs).length_le
    rw [hn] at h
    rw [h] at hlen
    simp at hlen
  · exact hb

theorem jsTrim_eq_self {l : List Char}
    (hhead : ∀ c cs, l = c :: cs → isJsWs c = false)
    (htail : GoodTail l) : jsTrim l = l := by
  cases l with
  | nil => rfl
  | cons c cs =>
    unfold jsTrim
    rw [List.dropWhile_cons_of_neg (by simp [hhead c cs rfl])]
    cases hrev : (c :: cs).reverse with
    | nil => simp at hrev
    | cons d ds =>
      have hd : (c :: cs).getLast? = some d := by
        rw [← List.head?_reverse, hrev]
        rfl
      have h2 : List.dropWhile isJsWs (d :: ds) = d :: ds :=
        List.dropWhile_cons_of_neg (by simp [htail d hd])
      rw [h2, ← hrev, List.reverse_reverse]

theorem goodTail_append {xs n : List Char} (hn : n ≠ []) (hg : GoodTail n) :
    GoodTail (xs ++ n) := by
  intro c hc
  apply hg
  rw [List.getLast?_append] at hc
  cases hl : n.getLast? with
  | none => rw [List.getLast?_eq_none_iff] at hl; exact absurd hl hn
  | some d =>
    rw [hl] at hc
    exact hc

theorem tryG3_all {c : Char} {cs : List Char}
    (hlt : ∀ x ∈ c :: cs, isLineTerm x = false) :
    tryG3 (c :: cs) = some (c :: cs) := by
  unfold tryG3
  rw [List.takeWhile_eq_self_iff.mpr (fun a ha => by simp [hlt a ha])]
  rfl

theorem stage6_full {c : Char} {cs : List Char} (hc : isJsWs c = false)
    (hlt : ∀ x ∈ c :: cs, isLineTerm x = false) :
    stage6 (c :: cs) = some (c :: cs) := by
  unfold stage6 wsDrops
  rw [List.takeWhile_cons_of_neg (by simp [hc]),
    List.dropWhile_cons_of_neg (by simp [hc])]
  simp only [List.length_nil, List.range_zero, List.map_nil]
  rw [findSome?_singleton]
  exact tryG3_all hlt

theorem stage4_plain {c : Char} {cs : List Char} (hc : isJsWs c = false)
    (hconn : ∀ t' ∈ connectorTokens, ciMismatch t' (c :: cs) = true)
    (hlt : ∀ x ∈ c :: cs, isLineTerm x = false) :
    stage4 (c :: cs) = some (c :: cs) := by
  unfold stage4 wsDrops
  rw [List.takeWhile_cons_of_neg (by simp [hc]),
    List.dropWhile_cons_of_neg (by simp [hc])]
  simp only [List.length_nil, List.range_zero, List.map_nil]
  rw [findSome?_singleton]
  unfold stage5
  rw [List.filterMap_eq_nil_iff.mpr (fun t' ht' => by
    rw [ciSplit_eq_none_of_ciMismatch _ _ (hconn t' ht')]
    rfl)]
  rw [List.nil_append, findSome?_singleton]
  exact stage6_full hc hlt

theorem stage4_de {c : Char} {cs : List Char} (hc : isJsWs c = false)
    (hlt : ∀ x ∈ c :: cs, isLineTerm x = false) :
    stage4 (' ' :: 'd' :: 'e' :: ' ' :: (c :: cs)) = some (c :: cs) := by
  unfold stage4 wsDrops
  rw [List.takeWhile_cons_of_pos (by decide),
    List.takeWhile_cons_of_neg (by decide),
    List.dropWhile_cons_of_pos (by decide),
    List.dropWhile_cons_of_neg (by decide)]
  have h5 : stage5 ('d' :: 'e' :: ' ' :: (c :: cs)) = some (c :: cs) := by
    unfold stage5 connectorTokens
    have hsp : ciSplit ("de ".data) ('d' :: 'e' :: ' ' :: (c :: cs)) =
        some ("de ".data, c :: cs) :=
      ciSplit_append_of_lower ("de ".data) ("de ".data) rfl (c :: cs)
    rw [List.filterMap_cons_some (by rw [hsp]; rfl)]
    rw [List.cons_append, List.findSome?_cons, stage6_full hc hlt]
  rw [List.findSome?_cons, h5]

/-- Decidable certificate that a lexicon alternative sing is reached with
every earlier alternative hitting a character mismatch against the probe
string. -/
def selectOk (sing probe : List Char) : Bool :=
  ((unitTokens.takeWhile (fun t' => !(t' == sing))).all
    (fun t' => ciMismatch t' probe)) &&
  (match unitTokens.dropWhile (fun t' => !(t' == sing)) with
   | t'' :: _ => t'' == sing
   | [] => false)

theorem selectOk_split {sing probe : List Char} (h : selectOk sing probe = true) :
    ∃ B A, unitTokens = B ++ sing :: A ∧ ∀ t' ∈ B, ciMismatch t' probe = true := by
  unfold selectOk at h
  simp only [Bool.and_eq_true, List.all_eq_true] at h
  obtain ⟨hall, hdrop⟩ := h
  cases hd : unitTokens.dropWhile (fun t' => !(t' == sing)) with
  | nil => rw [hd] at hdrop; simp at hdrop
  | cons t'' A =>
    rw [hd] at hdrop
    have ht : t'' = sing := by simpa using hdrop
    refine ⟨unitTokens.takeWhile (fun t' => !(t' == sing)), A, ?_, ?_⟩
    · conv_lhs => rw [← List.takeWhile_append_dropWhile
        (fun t' => !(t' == sing)) unitTokens]
      rw [hd, ht]
    · intro t' ht'
      exact hall t' ht'

theorem matchRegex_qty_unit {sing : List Char} {c : Char} {us rest g3v : List Char}
    (hsplit : ∃ B A, unitTokens = B ++ sing :: A ∧
      ∀ t' ∈ B, ciMismatch t' (c :: (us ++ rest)) = true)
    (hu : (c :: us).map lowerCh = sing.map lowerCh)
    (hqc : isQtyChar c = false)
    (hstage4 : stage4 rest = some g3v) :
    matchIngredientRegex ('2' :: ' ' :: (c :: (us ++ rest))) =
      some ⟨some ['2', ' '], some (c :: us), g3v⟩ := by
  have hwc : isJsWs c = false := ws_false_of_qty_false hqc
  have hstage3 : stage3 (c :: (us ++ rest)) = some (some (c :: us), g3v) := by
    obtain ⟨B, A, hBA, hmiss⟩ := hsplit
    unfold stage3
    rw [hBA, List.filterMap_append]
    rw [List.filterMap_eq_nil_iff.mpr (fun t' ht' => by
      rw [ciSplit_eq_none_of_ciMismatch _ _ (hmiss t' ht')]
      rfl)]
    rw [List.nil_append]
    have hsp : ciSplit sing ((c :: us) ++ rest) = some (c :: us, rest) :=
      ciSplit_append_of_lower sing (c :: us) hu rest
    rw [List.cons_append] at hsp
    rw [List.filterMap_cons_some (by rw [hsp]; rfl)]
    rw [List.cons_append, List.findSome?_cons]
    simp [hstage4]
  have hstage2 : stage2 (c :: (us ++ rest)) = some (some (c :: us), g3v) := by
    unfold stage2 wsDrops
    rw [List.takeWhile_cons_of_neg (by simp [hwc]),
      List.dropWhile_cons_of_neg (by simp [hwc])]
    simp only [List.length_nil, List.range_zero, List.map_nil]
    rw [findSome?_singleton]
    exact hstage3
  have htw : ('2' :: ' ' :: (c :: (us ++ rest))).takeWhile isQtyChar = ['2', ' '] := by
    rw [List.takeWhile_cons_of_pos (by decide),
      List.takeWhile_cons_of_pos (by decide),
      List.takeWhile_cons_of_neg (by simp [hqc])]
  unfold matchIngredientRegex qtyDrops
  rw [htw]
  simp only [List.length_cons, List.length_nil, List.range_succ, List.range_zero,
    List.map_nil, List.nil_append, List.map_append, List.map_cons, List.cons_append]
  norm_num
  rw [List.findSome?_cons]
  simp [hstage2]

theorem parseIngredientLine_of_match {s : String} (htrim : jsTrim s.data = s.data)
    (hne : s.data ≠ []) {gs : RegexGroups}
    (hm : matchIngredientRegex s.data = some gs) (hg3 : gs.g3 ≠ []) :
    parseIngredientLine s =
      ⟨gs.g1.bind parseFraction, gs.g2.map String.mk,
       String.mk (jsTrim gs.g3), detectOptional s.data⟩ := by
  unfold parseIngredientLine
  rw [htrim]
  rw [if_neg (by simp [List.isEmpty_iff, hne])]
  simp only [hm]
  rw [if_neg (by simp [List.isEmpty_iff, hg3])]

/-- C8 counterexample: the lexicon plural cuillères is never recognized
whole; the ordered alternation commits to the singular cuillère and the
trailing s spills into the name, so the claimed parse of the line
2 cuillères de sucre is false. -/
theorem C8_plural_counterexample :
    parseIngredientLine ("2 cuillères de sucre") =
      ⟨some 2, some ("cuillère"), "s de sucre", false⟩ ∧
    parseIngredientLine ("2 cuillères de sucre") ≠
      ⟨some 2, some ("cuillères"), "sucre", false⟩ := by
  refine ⟨by decide, by decide⟩

theorem string_eq_of_data {s : String} {l : List Char} (h : s.data = l) :
    s = String.mk l := by
  cases s
  simp_all

theorem forall_lineTerm_append {pre n : List Char}
    (hpre : ∀ x ∈ pre, isLineTerm x = false)
    (hn : ∀ x ∈ n, isLineTerm x = false) :
    ∀ x ∈ pre ++ n, isLineTerm x = false := by
  intro x hx
  rcases List.mem_append.mp hx with h | h
  · exact hpre x h
  · exact hn x h

theorem line_data (u n : String) :
    ("2 " ++ u ++ " de " ++ n).data =
      '2' :: ' ' :: (u.data ++ (' ' :: 'd' :: 'e' :: ' ' :: n.data)) := by
  rw [String.data_append, String.data_append, String.data_append,
    List.append_assoc, List.append_assoc]
  rfl

theorem data_ne_of_ne {n : String} (h : n ≠ "") : n.data ≠ [] := by
  intro hd
  cases n
  simp_all

theorem goodTail_of_trim_fixed {n : String} (h : jsTrim n.data = n.data) :
    GoodTail n.data := by
  rw [← h]
  exact goodTail_jsTrim n.data

theorem parse_line_whole_unit {u n : String} {tok : List Char}
    (hsel : selectOk tok tok = true)
    (htne : tok ≠ [])
    (hth : ∀ c ∈ tok.head?, isQtyChar (lowerCh c) = false)
    (hmapeq : u.data.map lowerCh = tok.map lowerCh)
    (htrimn : jsTrim n.data = n.data) (hne : n ≠ "")
    (hlt : ∀ c ∈ n.data, isLineTerm c = false) :
    parseIngredientLine ("2 " ++ u ++ " de " ++ n) =
      ⟨some 2, some u, n, detectOptional (("2 " ++ u ++ " de " ++ n).data)⟩ := by
  have hnd : n.data ≠ [] := data_ne_of_ne hne
  have hgtn : GoodTail n.data := goodTail_of_trim_fixed htrimn
  obtain ⟨tc, ts, rfl⟩ : ∃ tc ts, tok = tc :: ts := by
    cases tok with
    | nil => exact absurd rfl htne
    | cons a b => exact ⟨a, b, rfl⟩
  have hthc : isQtyChar (lowerCh tc) = false := hth tc rfl
  obtain ⟨c, us, hud⟩ : ∃ c us, u.data = c :: us := by
    cases hu : u.data with
    | nil => rw [hu] at hmapeq; simp at hmapeq
    | cons a b => exact ⟨a, b, rfl⟩
  have hmc : (c :: us).map lowerCh = (tc :: ts).map lowerCh := by
    rw [← hud]; exact hmapeq
  have hlow : lowerCh c = lowerCh tc := by
    simp only [List.map_cons, List.cons.injEq] at hmc
    exact hmc.1
  have hqc : isQtyChar c = false := by
    rcases Bool.eq_false_or_eq_true (isQtyChar c) with hb | hb
    · exfalso
      rw [lowerCh_eq_self_of_qty hb] at hlow
      rw [← hlow] at hthc
      rw [hb] at hthc
      exact absurd hthc (by simp)
    · exact hb
  obtain ⟨nc, ncs, hndc⟩ : ∃ nc ncs, n.data = nc :: ncs := by
    cases hn0 : n.data with
    | nil => exact absurd hn0 hnd
    | cons a b => exact ⟨a, b, rfl⟩
  have hnh : isJsWs nc = false :=
    head_not_ws_of_jsTrim_fixed htrimn nc ncs hndc
  have hstage4 : stage4 (' ' :: 'd' :: 'e' :: ' ' :: n.data) = some n.data := by
    rw [hndc]
    exact stage4_de hnh (by rw [← hndc]; exact hlt)
  obtain ⟨B, A, hBA, hmis⟩ := selectOk_split hsel
  have hsplit : ∃ B A, unitTokens = B ++ (tc :: ts) :: A ∧
      ∀ t' ∈ B, ciMismatch t'
        (c :: (us ++ (' ' :: 'd' :: 'e' :: ' ' :: n.data))) = true := by
    refine ⟨B, A, hBA, ?_⟩
    intro t' ht'
    have m2 : ciMismatch t'
        ((tc :: ts) ++ (' ' :: 'd' :: 'e' :: ' ' :: n.data)) = true :=
      ciMismatch_append _ _ _ (hmis t' ht')
    have hme : ((c :: us) ++ (' ' :: 'd' :: 'e' :: ' ' :: n.data)).map lowerCh =
        ((tc :: ts) ++ (' ' :: 'd' :: 'e' :: ' ' :: n.data)).map lowerCh := by
      rw [List.map_append, List.map_append, ← hud, hmapeq]
    rw [← List.cons_append]
    rw [ciMismatch_lower_congr t' _ _ hme]
    exact m2
  have hm : matchIngredientRegex ("2 " ++ u ++ " de " ++ n).data =
      some ⟨some ['2', ' '], some (c :: us), n.data⟩ := by
    rw [line_data, hud, List.cons_append]
    exact matchRegex_qty_unit hsplit (by rw [← hud]; exact hmapeq) hqc hstage4
  have htrimfull : jsTrim ("2 " ++ u ++ " de " ++ n).data =
      ("2 " ++ u ++ " de " ++ n).data := by
    rw [line_data]
    apply jsTrim_eq_self
    · intro c' cs' heq
      injection heq with h1 h2
      rw [← h1]
      decide
    · have hshape : ('2' :: ' ' :: (u.data ++ (' ' :: 'd' :: 'e' :: ' ' :: n.data))) =
          ('2' :: ' ' :: (u.data ++ [' ', 'd', 'e', ' '])) ++ n.data := by
        simp [List.append_assoc]
      rw [hshape]
      exact goodTail_append hnd hgtn
  rw [parseIngredientLine_of_match htrimfull
    (by rw [line_data]; simp) hm (by simpa using hnd)]
  have hf : parseFraction ['2', ' '] = some 2 := by decide
  simp only [Option.some_bind, Option.map_some', hf, htrimn]
  rw [← hud]

theorem parse_line_split_unit {n : String} {sing : List Char} {d : Char}
    {ds : List Char} {c0 : Char} {us0 : List Char}
    (hsing : sing = c0 :: us0)
    (hqc : isQtyChar c0 = false)
    (hsplit : ∃ B A, unitTokens = B ++ sing :: A ∧
      ∀ t' ∈ B, ciMismatch t'
        (sing ++ (d :: (ds ++ (' ' :: 'd' :: 'e' :: ' ' :: n.data)))) = true)
    (hwd : isJsWs d = false)
    (hconnd : ∀ t' ∈ connectorTokens, ciMismatch t' [d] = true)
    (hpre : ∀ x ∈ d :: (ds ++ [' ', 'd', 'e', ' ']), isLineTerm x = false)
    (htrimn : jsTrim n.data = n.data) (hne : n ≠ "")
    (hlt : ∀ c ∈ n.data, isLineTerm c = false) :
    parseIngredientLine
        (String.mk ('2' :: ' ' :: (sing ++ (d :: (ds ++ (' ' :: 'd' :: 'e' :: ' ' :: n.data)))))) =
      ⟨some 2, some (String.mk sing),
       String.mk (d :: (ds ++ (' ' :: 'd' :: 'e' :: ' ' :: n.data))),
       detectOptional ('2' :: ' ' :: (sing ++ (d :: (ds ++ (' ' :: 'd' :: 'e' :: ' ' :: n.data)))))⟩ := by
  subst hsing
  simp only [List.cons_append] at hsplit ⊢
  have hnd : n.data ≠ [] := data_ne_of_ne hne
  have hgtn : GoodTail n.data := goodTail_of_trim_fixed htrimn
  have hshape : d :: (ds ++ (' ' :: 'd' :: 'e' :: ' ' :: n.data)) =
      (d :: (ds ++ [' ', 'd', 'e', ' '])) ++ n.data := by
    simp [List.append_assoc]
  have hltrest : ∀ x ∈ d :: (ds ++ (' ' :: 'd' :: 'e' :: ' ' :: n.data)),
      isLineTerm x = false := by
    rw [hshape]
    exact forall_lineTerm_append hpre hlt
  have hgtrest : GoodTail (d :: (ds ++ (' ' :: 'd' :: 'e' :: ' ' :: n.data))) := by
    rw [hshape]
    exact goodTail_append hnd hgtn
  have htrimrest : jsTrim (d :: (ds ++ (' ' :: 'd' :: 'e' :: ' ' :: n.data))) =
      d :: (ds ++ (' ' :: 'd' :: 'e' :: ' ' :: n.data)) := by
    apply jsTrim_eq_self
    · intro c' cs' heq
      injection heq with h1 h2
      rw [← h1]
      exact hwd
    · exact hgtrest
  have hstage4 : stage4 (d :: (ds ++ (' ' :: 'd' :: 'e' :: ' ' :: n.data))) =
      some (d :: (ds ++ (' ' :: 'd' :: 'e' :: ' ' :: n.data))) := by
    apply stage4_plain hwd
    · intro t' ht'
      exact ciMismatch_append t' [d] _ (hconnd t' ht')
    · exact hltrest
  have hm : matchIngredientRegex
      ('2' :: ' ' :: (c0 :: (us0 ++ (d :: (ds ++ (' ' :: 'd' :: 'e' :: ' ' :: n.data)))))) =
      some ⟨some ['2', ' '], some (c0 :: us0),
        d :: (ds ++ (' ' :: 'd' :: 'e' :: ' ' :: n.data))⟩ :=
    matchRegex_qty_unit hsplit rfl hqc hstage4
  have htrimfull : jsTrim ('2' :: ' ' :: (c0 :: (us0 ++ (d :: (ds ++ (' ' :: 'd' :: 'e' :: ' ' :: n.data)))))) =
      '2' :: ' ' :: (c0 :: (us0 ++ (d :: (ds ++ (' ' :: 'd' :: 'e' :: ' ' :: n.data))))) := by
    apply jsTrim_eq_self
    · intro c' cs' heq
      injection heq with h1 h2
      rw [← h1]
      decide
    · have hshape2 : ('2' :: ' ' :: (c0 :: (us0 ++ (d :: (ds ++ (' ' :: 'd' :: 'e' :: ' ' :: n.data)))))) =
          ('2' :: ' ' :: (c0 :: (us0 ++ (d :: (ds ++ [' ', 'd', 'e', ' ']))))) ++ n.data := by
        simp [List.append_assoc]
      rw [hshape2]
      exact goodTail_append hnd hgtn
  rw [parseIngredientLine_of_match (s := String.mk _) htrimfull (by simp) hm
    (by simp)]
  have hf : parseFraction ['2', ' '] = some 2 := by decide
  simp only [Option.some_bind, Option.map_some', hf, htrimrest]

/-- C8 amended: with the ingredient name ranging over every trimmed,
non-empty, line-terminator-free string n, lines of the form 2 token de n
behave as follows: every singular or base unit token other than gousse,
in any letter-case spelling, is recognized whole as the unit with n
returned intact as the name; each listed plural form (in its listed
spelling) is never matched whole — the ordered alternation commits to the
singular alternative, leaving the trailing s and the connector in the
name (s de n); and gousse and gousses are matched only up to the earlier
alternative g, leaving ousse de n or ousses de n in the name.  The
optional flag is in every case the whole-line scan. -/
theorem C8_unit_lexicon_amended :
    (∀ t ∈ wholeMatchUnitTokens, ∀ u n : String,
      lowerStr u = lowerStr t →
      jsTrim n.data = n.data → n ≠ "" →
      (∀ c ∈ n.data, isLineTerm c = false) →
      parseIngredientLine ("2 " ++ u ++ " de " ++ n) =
        ⟨some 2, some u, n,
         detectOptional (("2 " ++ u ++ " de " ++ n).data)⟩) ∧
    (∀ pr ∈ shadowedPluralPairs, ∀ n : String,
      jsTrim n.data = n.data → n ≠ "" →
      (∀ c ∈ n.data, isLineTerm c = false) →
      parseIngredientLine ("2 " ++ pr.1 ++ " de " ++ n) =
        ⟨some 2, some pr.2, "s de " ++ n,
         detectOptional (("2 " ++ pr.1 ++ " de " ++ n).data)⟩) ∧
    (∀ n : String,
      jsTrim n.data = n.data → n ≠ "" →
      (∀ c ∈ n.data, isLineTerm c = false) →
      parseIngredientLine ("2 gousse de " ++ n) =
        ⟨some 2, some ("g"), "ousse de " ++ n,
         detectOptional (("2 gousse de " ++ n).data)⟩ ∧
      parseIngredientLine ("2 gousses de " ++ n) =
        ⟨some 2, some ("g"), "ousses de " ++ n,
         detectOptional (("2 gousses de " ++ n).data)⟩) := by
  have hselAll : ∀ t ∈ wholeMatchUnitTokens, selectOk t.data t.data = true := by
    decide
  have hneAll : ∀ t ∈ wholeMatchUnitTokens, t.data ≠ [] := by decide
  have hheadAll : ∀ t ∈ wholeMatchUnitTokens,
      ∀ c ∈ t.data.head?, isQtyChar (lowerCh c) = false := by decide
  refine ⟨?_, ?_, ?_⟩
  · intro t ht u n hlow htrimn hne hlt
    exact parse_line_whole_unit (hselAll t ht) (hneAll t ht) (hheadAll t ht)
      (congrArg String.data hlow) htrimn hne hlt
  · intro pr hpr n htrimn hne hlt
    have hfact : ∀ p ∈ shadowedPluralPairs,
        p.1.data = p.2.data ++ ['s'] ∧
        selectOk p.2.data p.1.data = true ∧
        p.2.data ≠ [] ∧
        ∀ c ∈ p.2.data.head?, isQtyChar c = false := by decide
    obtain ⟨hps, hsel, hpne, hph⟩ := hfact pr hpr
    obtain ⟨c0, us0, hsing⟩ : ∃ c0 us0, pr.2.data = c0 :: us0 := by
      cases h2 : pr.2.data with
      | nil => exact absurd h2 hpne
      | cons a b => exact ⟨a, b, rfl⟩
    have hqc0 : isQtyChar c0 = false := by
      apply hph
      rw [hsing]
      rfl
    obtain ⟨B, A, hBA, hmis⟩ := selectOk_split hsel
    have hsplit : ∃ B A, unitTokens = B ++ pr.2.data :: A ∧
        ∀ t' ∈ B, ciMismatch t'
          (pr.2.data ++ ('s' :: ([] ++ (' ' :: 'd' :: 'e' :: ' ' :: n.data)))) = true := by
      refine ⟨B, A, hBA, ?_⟩
      intro t' ht'
      have m1 : ciMismatch t' (pr.1.data ++ (' ' :: 'd' :: 'e' :: ' ' :: n.data)) = true :=
        ciMismatch_append _ _ _ (hmis t' ht')
      rw [hps, List.append_assoc] at m1
      simpa using m1
    have heqstr : ("2 " ++ pr.1 ++ " de " ++ n) =
        String.mk ('2' :: ' ' :: (pr.2.data ++ ('s' :: ([] ++ (' ' :: 'd' :: 'e' :: ' ' :: n.data))))) := by
      apply string_eq_of_data
      rw [line_data, hps, List.append_assoc]
      rfl
    have hres := parse_line_split_unit (n := n) hsing hqc0 hsplit
      (by decide) (by decide) (by decide) htrimn hne hlt
    rw [heqstr, hres]
    have hdata2 : ("2 " ++ pr.1 ++ " de " ++ n).data =
        '2' :: ' ' :: (pr.2.data ++ ('s' :: ([] ++ (' ' :: 'd' :: 'e' :: ' ' :: n.data)))) := by
      rw [line_data, hps, List.append_assoc]
      rfl
    rw [← hdata2]
    have hname : String.mk ('s' :: ([] ++ (' ' :: 'd' :: 'e' :: ' ' :: n.data))) =
        "s de " ++ n := by
      symm
      apply string_eq_of_data
      rw [String.data_append]
      rfl
    rw [hname]
  · intro n htrimn hne hlt
    constructor
    · have hsplit : ∃ B A, unitTokens = B ++ ("g".data) :: A ∧
          ∀ t' ∈ B, ciMismatch t'
            ("g".data ++ ('o' :: ("usse".data ++ (' ' :: 'd' :: 'e' :: ' ' :: n.data)))) = true :=
        ⟨[], unitTokens.tail, rfl, fun t' ht' => absurd ht' (List.not_mem_nil t')⟩
      have hres := @parse_line_split_unit n ("g".data) 'o' ("usse".data) 'g' []
        rfl (by decide) hsplit
        (by decide) (by decide) (by decide) htrimn hne hlt
      have heqstr : ("2 gousse de " ++ n) =
          String.mk ('2' :: ' ' :: ("g".data ++ ('o' :: ("usse".data ++ (' ' :: 'd' :: 'e' :: ' ' :: n.data))))) := by
        apply string_eq_of_data
        rw [String.data_append]
        rfl
      rw [heqstr, hres]
      have hdata2 : ("2 gousse de " ++ n).data =
          '2' :: ' ' :: ("g".data ++ ('o' :: ("usse".data ++ (' ' :: 'd' :: 'e' :: ' ' :: n.data)))) := by
        rw [String.data_append]
        rfl
      rw [← hdata2]
      have hname : String.mk ('o' :: ("usse".data ++ (' ' :: 'd' :: 'e' :: ' ' :: n.data))) =
          "ousse de " ++ n := by
        symm
        apply string_eq_of_data
        rw [String.data_append]
        rfl
      rw [hname]
    · have hsplit : ∃ B A, unitTokens = B ++ ("g".data) :: A ∧
          ∀ t' ∈ B, ciMismatch t'
            ("g".data ++ ('o' :: ("usses".data ++ (' ' :: 'd' :: 'e' :: ' ' :: n.data)))) = true :=
        ⟨[], unitTokens.tail, rfl, fun t' ht' => absurd ht' (List.not_mem_nil t')⟩
      have hres := @parse_line_split_unit n ("g".data) 'o' ("usses".data) 'g' []
        rfl (by decide) hsplit
        (by decide) (by decide) (by decide) htrimn hne hlt
      have heqstr : ("2 gousses de " ++ n) =
          String.mk ('2' :: ' ' :: ("g".data ++ ('o' :: ("usses".data ++ (' ' :: 'd' :: 'e' :: ' ' :: n.data))))) := by
        apply string_eq_of_data
        rw [String.data_append]
        rfl
      rw [heqstr, hres]
      have hdata2 : ("2 gousses de " ++ n).data =
          '2' :: ' ' :: ("g".data ++ ('o' :: ("usses".data ++ (' ' :: 'd' :: 'e' :: ' ' :: n.data)))) := by
        rw [String.data_append]
        rfl
      rw [← hdata2]
      have hname : String.mk ('o' :: ("usses".data ++ (' ' :: 'd' :: 'e' :: ' ' :: n.data))) =
          "ousses de " ++ n := by
        symm
        apply string_eq_of_data
        rw [String.data_append]
        rfl
      rw [hname]

/-- C8 witness: the amended theorem applied to the upper-case spelling KG
of the token kg with the name persil, and to the plural cuillères with the
name sucre. -/
theorem C8_unit_lexicon_amended_witness :
    parseIngredientLine ("2 " ++ "KG" ++ " de " ++ "persil") =
      ⟨some 2, some ("KG"), "persil",
       detectOptional (("2 " ++ "KG" ++ " de " ++ "persil").data)⟩ ∧
    parseIngredientLine ("2 " ++ "cuillères" ++ " de " ++ "sucre") =
      ⟨some 2, some ("cuillère"), "s de " ++ "sucre",
       detectOptional (("2 " ++ "cuillères" ++ " de " ++ "sucre").data)⟩ :=
  ⟨C8_unit_lexicon_amended.1 ("kg") (by decide) ("KG") ("persil")
      (by decide) (by decide) (by decide) (by decide),
   C8_unit_lexicon_amended.2.1 ("cuillères", "cuillère") (by decide) ("sucre")
      (by decide) (by decide) (by decide)⟩

/-- C9 counterexample: the input 45 PT is not PT-prefixed, so the claim
routes it to the digit-run fallback and predicts 45 minutes; but the
unanchored regex finds the PT occurrence, matches it with both groups
absent, and the code returns 0. -/
theorem C9_pt_anywhere_counterexample :
    parseTime ("45 PT") = 0 ∧ parseTime ("45 PT") ≠ 45 := by
  refine ⟨by decide, by decide⟩

/-- C9 amended: the duration parser is total and returns a natural number
of minutes; a string containing PT anywhere (not only as a prefix) is
decoded as 60*H+M at the first PT occurrence with absent groups read as
0; a string with no PT occurrence falls back to its first digit run;
empty or digit-free input yields 0; and the four quoted examples hold. -/
theorem C9_duration_minutes :
    parseTime ("PT1H30M") = 90 ∧
    parseTime ("PT45M") = 45 ∧
    parseTime ("") = 0 ∧
    parseTime ("45 minutes") = 45 ∧
    (∀ s : String, s ≠ "" → findPT s.data = none →
      parseTime s = (firstDigitRun s.data).getD 0) ∧
    (∀ s : String, s ≠ "" → ∀ hm : ℕ × ℕ, findPT s.data = some hm →
      parseTime s = 60 * hm.1 + hm.2) := by
  refine ⟨by decide, by decide, by decide, by decide, ?_, ?_⟩
  · intro s hs hnone
    unfold parseTime
    rw [if_neg hs, hnone]
  · intro s hs hm hsome
    unfold parseTime
    rw [if_neg hs, hsome]

/-- C9 witness: the fallback clause of the amended theorem applied to the
example 45 minutes. -/
theorem C9_duration_minutes_witness :
    parseTime ("45 minutes") = (firstDigitRun ("45 minutes").data).getD 0 :=
  C9_duration_minutes.2.2.2.2.1 ("45 minutes") (by decide) (by decide)

theorem autoMatchRun_filter_notLow (lines : List RecipeLine)
    (linkOk : String → String → Bool) :
    ∀ ms : List MatchCandidate,
      autoMatchRun lines linkOk (ms.filter notLow) = autoMatchRun lines linkOk ms := by
  intro ms
  induction ms with
  | nil => rfl
  | cons m rest ih =>
    by_cases hm : notLow m = true
    · rw [List.filter_cons_of_pos hm]
      simp only [autoMatchRun]
      rw [ih]
    · rw [List.filter_cons_of_neg hm]
      have hg : autoMatchGuard m = false := by
        unfold autoMatchGuard
        rw [Bool.eq_false_iff.mpr hm]
        simp
      conv_rhs => rw [show autoMatchRun lines linkOk (m :: rest) =
        autoMatchRun lines linkOk rest from by simp only [autoMatchRun, hg]; simp]
      exact ih

theorem autoMatchRun_count (lines : List RecipeLine)
    (linkOk : String → String → Bool) :
    ∀ ms : List MatchCandidate,
      (autoMatchRun lines linkOk ms).1 = (autoMatchRun lines linkOk ms).2.length := by
  intro ms
  induction ms with
  | nil => rfl
  | cons m rest ih =>
    simp only [autoMatchRun]
    split
    · split
      · split
        · simp [ih]
        · exact ih
      · exact ih
    · exact ih

theorem autoMatchRun_links_from (lines : List RecipeLine)
    (linkOk : String → String → Bool) :
    ∀ ms : List MatchCandidate, ∀ p ∈ (autoMatchRun lines linkOk ms).2,
      ∃ m ∈ ms, notLow m = true ∧ m.matchedIngredientId = some p.2 ∧ p.2 ≠ "" := by
  intro ms
  induction ms with
  | nil => intro p hp; simp [autoMatchRun] at hp
  | cons m rest ih =>
    intro p hp
    simp only [autoMatchRun] at hp
    by_cases hg : autoMatchGuard m = true
    · rw [if_pos hg] at hp
      have hparts : candidateIdTruthy m = true ∧ notLow m = true := by
        simpa [autoMatchGuard] using hg
      cases hid : m.matchedIngredientId with
      | none =>
        exfalso
        have := hparts.1
        simp [candidateIdTruthy, hid] at this
      | some mid =>
        have hmid : mid ≠ "" := by
          have h1 := hparts.1
          simp only [candidateIdTruthy, hid] at h1
          intro hmid
          rw [hmid] at h1
          simp at h1
        cases hfind : findUnlinkedLine lines m.recipeIngredientName with
        | none =>
          simp only [hfind, hid] at hp
          obtain ⟨m', hm', h⟩ := ih p hp
          exact ⟨m', by simp [hm'], h⟩
        | some l =>
          simp only [hfind, hid] at hp
          by_cases hok : linkOk l.id mid = true
          · rw [if_pos hok] at hp
            rcases List.mem_cons.mp hp with rfl | hp'
            · exact ⟨m, by simp, hparts.2, hid, hmid⟩
            · obtain ⟨m', hm', h⟩ := ih p hp'
              exact ⟨m', by simp [hm'], h⟩
          · rw [if_neg hok] at hp
            obtain ⟨m', hm', h⟩ := ih p hp
            exact ⟨m', by simp [hm'], h⟩
    · rw [if_neg hg] at hp
      obtain ⟨m', hm', h⟩ := ih p hp
      exact ⟨m', by simp [hm'], h⟩

/-- C3: the linker never links a LOW candidate, even when its matched id is
non-empty and an exactly matching unlinked line exists: removing every LOW
candidate from the batch leaves the whole outcome unchanged; every
performed link write stems from a candidate with confidence other than LOW
and that candidate carries exactly the written non-empty id; and the
reported count equals the number of lines actually linked. -/
theorem C3_linker_policy :
    (∀ (lines : List RecipeLine) (linkOk : String → String → Bool)
       (ms : List MatchCandidate),
      handleAutoMatch lines (ms.filter notLow) linkOk =
        handleAutoMatch lines ms linkOk) ∧
    (∀ (lines : List RecipeLine) (linkOk : String → String → Bool)
       (ms : List MatchCandidate),
      (handleAutoMatch lines ms linkOk).1 =
        (handleAutoMatch lines ms linkOk).2.length) ∧
    (∀ (lines : List RecipeLine) (linkOk : String → String → Bool)
       (ms : List MatchCandidate),
      ∀ p ∈ (handleAutoMatch lines ms linkOk).2,
        ∃ m ∈ ms, notLow m = true ∧ m.matchedIngredientId = some p.2 ∧ p.2 ≠ "") := by
  refine ⟨?_, ?_, ?_⟩
  · intro lines linkOk ms
    exact autoMatchRun_filter_notLow lines linkOk ms
  · intro lines linkOk ms
    exact autoMatchRun_count lines linkOk ms
  · intro lines linkOk ms
    exact autoMatchRun_links_from lines linkOk ms

/-- C3 witness: on a one-line recipe with one HIGH candidate and an
always-succeeding link write, the single created link stems from that
candidate. -/
theorem C3_linker_policy_witness :
    ∃ m ∈ [MatchCandidate.mk ("tomate") (some ("I1")) Confidence.HIGH],
      notLow m = true ∧ m.matchedIngredientId = some (("L1", "I1") : String × String).2 ∧
      (("L1", "I1") : String × String).2 ≠ "" :=
  C3_linker_policy.2.2 [⟨"L1", "tomate", none⟩] (fun _ _ => true)
    [⟨"tomate", some ("I1"), Confidence.HIGH⟩] ("L1", "I1") (by decide)

/-- C4: the block scan takes the first Recipe-typed candidate and nothing
else: a block whose JSON parse failed is skipped silently and scanning
continues; a parsed block contributes its candidates first, and only when
none of them is Recipe-typed are the later blocks consulted; a node whose
type array contains Recipe qualifies; and on a parse-failure block
followed by a graph array holding a non-Recipe node and then a Recipe
node, with a further Recipe block behind it, exactly the graph Recipe
node is selected. -/
theorem C4_first_recipe_wins :
    (∀ bs : List (Option LdParse),
      findRecipeData (none :: bs) = findRecipeData bs) ∧
    (∀ (p : LdParse) (bs : List (Option LdParse)),
      findRecipeData (some p :: bs) =
        ((ldCandidates p).find? isRecipeNode).or (findRecipeData bs)) ∧
    isRecipeNode ⟨some (.arr ["Thing", "Recipe"]), none⟩ = true ∧
    findRecipeData
        [none,
         some (.obj ⟨none, none⟩ (some
           [⟨some (.str ("Article")), some ("graph article")⟩,
            ⟨some (.str ("Recipe")), some ("graph recipe")⟩])),
         some (.arr [⟨some (.str ("Recipe")), some ("later recipe")⟩])] =
      some ⟨some (.str ("Recipe")), some ("graph recipe")⟩ := by
  refine ⟨?_, ?_, by decide, by decide⟩
  · intro bs
    simp [findRecipeData, List.findSome?_cons]
  · intro p bs
    unfold findRecipeData
    rw [List.findSome?_cons]
    cases hf : (ldCandidates p).find? isRecipeNode with
    | none => simp [hf]
    | some n => simp [hf]

/-- Archive entry content used in the concrete batch examples. -/
def samplePaprika (nm : String) : PaprikaRecipe :=
  ⟨some nm, none, none, none, none, none, none, none, none, none, none⟩

theorem importPaprika_mem :
    ∀ es : List ArchiveEntry, ∀ r ∈ importPaprika es,
      ∃ e ∈ es, hasPaprikaExt e.entryName = true ∧
        ∃ p, e.decoded = some p ∧ r = paprikaToImportResult p := by
  intro es r hr
  unfold importPaprika at hr
  obtain ⟨e, he, hfe⟩ := List.mem_filterMap.mp hr
  by_cases hext : hasPaprikaExt e.entryName = true
  · rw [if_pos hext] at hfe
    obtain ⟨p, hp, hpr⟩ := Option.map_eq_some'.mp hfe
    exact ⟨e, he, hext, p, hp, hpr.symm⟩
  · rw [if_neg hext] at hfe
    simp at hfe

/-- C5: the archive import yields one ImportResult per entry that has the
vendor extension and decodes, in order; a malformed entry is omitted
without aborting the rest; every result stems from a decoded entry; and
three entries of which the middle one has undecodable content yield
exactly the two results of the outer entries. -/
theorem C5_archive_skips_malformed :
    (∀ es : List ArchiveEntry,
      (importPaprika es).length =
        (es.filter (fun e => hasPaprikaExt e.entryName && e.decoded.isSome)).length) ∧
    (∀ es : List ArchiveEntry, ∀ r ∈ importPaprika es,
      ∃ e ∈ es, hasPaprikaExt e.entryName = true ∧
        ∃ p, e.decoded = some p ∧ r = paprikaToImportResult p) ∧
    importPaprika
        [⟨"a.paprikarecipe", some (samplePaprika ("A"))⟩,
         ⟨"b.paprikarecipe", none⟩,
         ⟨"c.paprikarecipe", some (samplePaprika ("C"))⟩] =
      [paprikaToImportResult (samplePaprika ("A")),
       paprikaToImportResult (samplePaprika ("C"))] ∧
    (importPaprika
        [⟨"a.paprikarecipe", some (samplePaprika ("A"))⟩,
         ⟨"b.paprikarecipe", none⟩,
         ⟨"c.paprikarecipe", some (samplePaprika ("C"))⟩]).length = 2 := by
  refine ⟨?_, importPaprika_mem, by decide, by decide⟩
  intro es
  induction es with
  | nil => rfl
  | cons e rest ih =>
    simp only [importPaprika, List.filterMap_cons, List.filter_cons] at ih ⊢
    by_cases hext : hasPaprikaExt e.entryName = true
    · cases hd : e.decoded with
      | none => simp [hext, hd, ih]
      | some p => simp [hext, hd, ih]
    · simp [hext, ih]

/-- C5 witness: the provenance clause applied to the first result of the
three-entry example. -/
theorem C5_archive_skips_malformed_witness :
    ∃ e ∈ [ArchiveEntry.mk ("a.paprikarecipe") (some (samplePaprika ("A"))),
           ArchiveEntry.mk ("b.paprikarecipe") none,
           ArchiveEntry.mk ("c.paprikarecipe") (some (samplePaprika ("C")))],
      hasPaprikaExt e.entryName = true ∧
      ∃ p, e.decoded = some p ∧
        paprikaToImportResult (samplePaprika ("A")) = paprikaToImportResult p :=
  C5_archive_skips_malformed.2.1
    [⟨"a.paprikarecipe", some (samplePaprika ("A"))⟩,
     ⟨"b.paprikarecipe", none⟩,
     ⟨"c.paprikarecipe", some (samplePaprika ("C"))⟩]
    (paprikaToImportResult (samplePaprika ("A"))) (by decide)

/-- C2 counterexample: a page whose only block is a Recipe object goes
through the structured-metadata path, and the tag it carries is JSON_LD,
not STRUCTURED_METADATA; likewise a decodable archive entry produces the
tag PAPRIKA, not ARCHIVE. -/
theorem C2_parse_method_counterexample :
    (importUrlRespond
        [some (.obj ⟨some (.str ("Recipe")), some ("tarte")⟩ none)]).recipeNode.isSome
      = true ∧
    (importUrlRespond
        [some (.obj ⟨some (.str ("Recipe")), some ("tarte")⟩ none)]).parseMethod
      ≠ "STRUCTURED_METADATA" ∧
    (importPaprika [⟨"a.paprikarecipe", some (samplePaprika ("A"))⟩]).map
        (fun r => r.parseMethod) ≠ ["ARCHIVE"] := by
  refine ⟨by decide, by decide, by decide⟩

/-- C2 amended: the web structured-metadata path tags its result JSON_LD
with confidence HIGH and the fallback path NEEDS_AI with confidence LOW;
every archive result is tagged PAPRIKA with confidence MEDIUM; and the
AI-text envelope is tagged AI_TEXT with confidence MEDIUM — so the four
reserved parse-method tag strings of the code are JSON_LD, PAPRIKA,
AI_TEXT and NEEDS_AI. -/
theorem C2_parse_method_tags :
    (∀ blocks : List (Option LdParse), (findRecipeData blocks).isSome = true →
      (importUrlRespond blocks).parseMethod = "JSON_LD" ∧
      (importUrlRespond blocks).confidence = "HIGH") ∧
    (∀ blocks : List (Option LdParse), findRecipeData blocks = none →
      (importUrlRespond blocks).parseMethod = "NEEDS_AI" ∧
      (importUrlRespond blocks).confidence = "LOW") ∧
    (∀ entries : List ArchiveEntry, ∀ r ∈ importPaprika entries,
      r.parseMethod = "PAPRIKA" ∧ r.confidence = "MEDIUM") ∧
    handleParseTextEnvelope.parseMethod = "AI_TEXT" ∧
    handleParseTextEnvelope.confidence = "MEDIUM" := by
  refine ⟨?_, ?_, ?_, by decide, by decide⟩
  · intro blocks hb
    unfold importUrlRespond
    cases hf : findRecipeData blocks with
    | none => rw [hf] at hb; simp at hb
    | some n => simp
  · intro blocks hb
    unfold importUrlRespond
    rw [hb]
    exact ⟨rfl, rfl⟩
  · intro entries r hr
    obtain ⟨e, _, hext, p, _, hrp⟩ := importPaprika_mem entries r hr
    rw [hrp]
    exact ⟨rfl, rfl⟩

/-- C2 witness: the structured path applied to the one-block Recipe page,
and the archive clause applied to a decoded entry. -/
theorem C2_parse_method_tags_witness :
    ((importUrlRespond
        [some (.obj ⟨some (.str ("Recipe")), some ("tarte")⟩ none)]).parseMethod
      = "JSON_LD" ∧
     (importUrlRespond
        [some (.obj ⟨some (.str ("Recipe")), some ("tarte")⟩ none)]).confidence
      = "HIGH") ∧
    ((paprikaToImportResult (samplePaprika ("A"))).parseMethod = "PAPRIKA" ∧
     (paprikaToImportResult (samplePaprika ("A"))).confidence = "MEDIUM") :=
  ⟨C2_parse_method_tags.1
      [some (.obj ⟨some (.str ("Recipe")), some ("tarte")⟩ none)] (by decide),
   C2_parse_method_tags.2.2.1
      [⟨"a.paprikarecipe", some (samplePaprika ("A"))⟩]
      (paprikaToImportResult (samplePaprika ("A"))) (by decide)⟩

theorem range_succ_map_shift {β : Type} (f : ℕ → β) (k : ℕ) :
    (List.range (k + 1)).map f = f 0 :: (List.range k).map (fun j => f (j + 1)) := by
  rw [List.range_succ_eq_map]
  simp [List.map_map, Function.comp, Nat.succ_eq_add_one]

theorem batchLoop_fail_spec (create : ℕ → Except String Unit) (total : ℕ)
    (e : String) :
    ∀ (m rem i : ℕ) (st : BatchState), m < rem →
      (∀ j, j < m → create (i + j) = .ok ()) →
      create (i + m) = .error e →
      batchLoop create total rem i st =
        { progressLog := st.progressLog ++
            ((List.range (m + 1)).map (fun j => some ⟨i + j + 1, total⟩)) ++ [none],
          progress := none,
          error := some e,
          attempted := st.attempted ++ (List.range (m + 1)).map (fun j => i + j),
          persisted := st.persisted ++ (List.range m).map (fun j => i + j),
          navigated := st.navigated } := by
  intro m
  induction m with
  | zero =>
    intro rem i st hlt hok hfail
    cases rem with
    | zero => omega
    | succ r =>
      have hfail' : create i = .error e := hfail
      simp only [batchLoop, setBatchProgress, hfail']
      simp [List.range_succ, List.append_assoc]
  | succ m ih =>
    intro rem i st hlt hok hfail
    cases rem with
    | zero => omega
    | succ r =>
      have hok0 : create i = .ok () := hok 0 (by omega)
      simp only [batchLoop, setBatchProgress, hok0]
      rw [ih r (i + 1) _ (by omega)
        (by
          intro j hj
          have h2 := hok (j + 1) (by omega)
          rw [show i + 1 + j = i + (j + 1) from by omega]
          exact h2)
        (by
          rw [show i + 1 + m = i + (m + 1) from by omega]
          exact hfail)]
      simp only [BatchState.mk.injEq]
      refine ⟨?_, trivial, trivial, ?_, ?_, trivial⟩
      · rw [range_succ_map_shift (fun j => some (BatchProgress.mk (i + j + 1) total)) (m + 1)]
        simp [List.append_assoc, Nat.add_assoc, Nat.add_comm, Nat.add_left_comm]
      · rw [range_succ_map_shift (fun j => i + j) (m + 1)]
        simp [List.append_assoc, Nat.add_assoc, Nat.add_comm, Nat.add_left_comm]
      · rw [range_succ_map_shift (fun j => i + j) m]
        simp [List.append_assoc, Nat.add_assoc, Nat.add_comm, Nat.add_left_comm]

/-- C1 amended: when creating the k-th selected candidate fails (0-based
index k here) after all earlier ones succeeded, candidates before k remain
persisted with no rollback, candidates after k are never attempted, and
the error is surfaced; but the progress values the caller observes are
0 of n, then i+1 of n immediately before each attempt i up to and
including the failing one, and finally null: the handler advances progress
before creating an item and resets it to null in its catch branch, so the
final progress is null and the value current k-1 is never the frozen
outcome. -/
theorem C1_batch_partial_failure {α : Type} (cands : List (PaprikaCandidate α))
    (create : ℕ → Except String Unit) (k : ℕ) (e : String)
    (hk : k < (cands.filter (fun c => c.selected)).length)
    (hok : ∀ j, j < k → create j = .ok ())
    (hfail : create k = .error e) :
    handleBatchImportPaprika cands create =
      { progressLog := (List.range (k + 2)).map
          (fun j => some ⟨j, (cands.filter (fun c => c.selected)).length⟩) ++ [none],
        progress := none,
        error := some e,
        attempted := List.range (k + 1),
        persisted := List.range k,
        navigated := false } := by
  unfold handleBatchImportPaprika
  rw [if_neg (by omega)]
  rw [batchLoop_fail_spec create (cands.filter (fun c => c.selected)).length e k
    (cands.filter (fun c => c.selected)).length 0 _ (by omega)
    (by intro j hj; simpa using hok j hj)
    (by simpa using hfail)]
  simp only [setBatchProgress, initialBatchState, BatchState.mk.injEq]
  refine ⟨?_, trivial, trivial, ?_, ?_, trivial⟩
  · rw [range_succ_map_shift
      (fun j => some (BatchProgress.mk j (cands.filter (fun c => c.selected)).length))
      (k + 1)]
    simp [List.append_assoc, Nat.add_assoc, Nat.add_comm, Nat.add_left_comm]
  · simp
  · simp

/-- C1 witness: three selected candidates with the second creation
failing: the first is persisted, the third never attempted, the error is
surfaced, the progress history is 0 of 3, 1 of 3, 2 of 3, null, and the
final progress is null. -/
theorem C1_batch_partial_failure_witness :
    handleBatchImportPaprika
        [PaprikaCandidate.mk () true, ⟨(), true⟩, ⟨(), true⟩]
        (fun i => if i = 1 then Except.error ("boom") else Except.ok ()) =
      ⟨[some ⟨0, 3⟩, some ⟨1, 3⟩, some ⟨2, 3⟩, none], none, some ("boom"),
       [0, 1], [0], false⟩ := by
  rw [C1_batch_partial_failure
    [PaprikaCandidate.mk () true, ⟨(), true⟩, ⟨(), true⟩]
    (fun i => if i = 1 then Except.error ("boom") else Except.ok ())
    1 ("boom") (by decide)
    (by intro j hj; interval_cases j; rfl)
    (by rfl)]
  decide

/-- C1 counterexample: in the three-candidate run whose second creation
throws, the caller observes progress null, not the claimed frozen value
current 1 of total 3 — the other parts of the claim (first persisted,
third unattempted, error surfaced) do hold. -/
theorem C1_progress_counterexample :
    (handleBatchImportPaprika
        [PaprikaCandidate.mk () true, ⟨(), true⟩, ⟨(), true⟩]
        (fun i => if i = 1 then Except.error ("boom") else Except.ok ())).progress
      = none ∧
    (handleBatchImportPaprika
        [PaprikaCandidate.mk () true, ⟨(), true⟩, ⟨(), true⟩]
        (fun i => if i = 1 then Except.error ("boom") else Except.ok ())).progress
      ≠ some ⟨1, 3⟩ ∧
    (handleBatchImportPaprika
        [PaprikaCandidate.mk () true, ⟨(), true⟩, ⟨(), true⟩]
        (fun i => if i = 1 then Except.error ("boom") else Except.ok ())).persisted
      = [0] ∧
    (handleBatchImportPaprika
        [PaprikaCandidate.mk () true, ⟨(), true⟩, ⟨(), true⟩]
        (fun i => if i = 1 then Except.error ("boom") else Except.ok ())).attempted
      = [0, 1] ∧
    (handleBatchImportPaprika
        [PaprikaCandidate.mk () true, ⟨(), true⟩, ⟨(), true⟩]
        (fun i => if i = 1 then Except.error ("boom") else Except.ok ())).error
      = some ("boom") := by
  refine ⟨by decide, by decide, by decide, by decide, by decide⟩

end KitchenFlow
